import Mathlib

/-!
Shallow embedding of the `coin-select` crate (bitcoindevkit/coin-select).

Modelling conventions, used consistently below:

* Rust `u64`/`u32`/`usize` are modelled as `Nat`; `i64` as `Int`.  The
  claims under study are about the selection logic, not about wrap-around,
  so the machine integers are modelled unbounded.
* Rust `f32` arithmetic (feerates, fee products) is modelled by exact
  rational arithmetic (`Rat`); `f32::ceil` becomes `Int.ceil` and the
  saturating cast `as u64` becomes `Int.toNat`.  `Ordf32` (scores and
  bounds, a total order on non-NaN 32-bit floats) is modelled as `Rat`.
* `BTreeSet<usize>` becomes `Finset Nat`; `Vec<usize>` becomes `List Nat`.
* `BinaryHeap<Branch>` is modelled as a list kept sorted by the `Branch`
  ordering (best branch first); `pop` takes the head.  Branches that
  compare equal are interchangeable for every property proved here.
* The `BnbMetric` trait object is a structure of pure functions; the three
  metric implementations in `src/metrics` never mutate themselves, so this
  is faithful to how the driver uses the trait.
-/

namespace CoinSelect

/-- Candidate input, from `coin_selector.rs` (`struct Candidate`): value in
sats, weight in weight units, input count, segwit flag. -/
structure Candidate where
  value : Nat
  weight : Nat
  input_count : Nat
  is_segwit : Bool
  deriving DecidableEq, Repr

/-- Helper to calculate varint size, from `lib.rs` (`fn varint_size`). -/
def varint_size (v : Nat) : Nat :=
  if v ≤ 0xfc then 1
  else if v ≤ 0xffff then 3
  else if v ≤ 0xffffffff then 5
  else 9

/-- Weight of the `nVersion` and `nLockTime` fields, from `lib.rs`. -/
def TX_FIXED_FIELD_WEIGHT : Nat := (4 + 4) * 4

/-- Selection state, from `coin_selector.rs` (`struct CoinSelector`):
the candidate slice, the selected and banned index sets, and the
iteration-order permutation. -/
structure Selector where
  candidates : List Candidate
  selected : Finset Nat
  banned : Finset Nat
  candidate_order : List Nat
  deriving DecidableEq

/-- Construction from a candidate slice, from `CoinSelector::new`. -/
def Selector.new (candidates : List Candidate) : Selector :=
  { candidates := candidates
    selected := ∅
    banned := ∅
    candidate_order := List.range candidates.length }

/-- Indexing `self.candidates[index]`; Rust panics out of range, the model
totalises with a default candidate (theorems add the range side condition
where the source's panic freedom matters). -/
def Selector.candidateAt (cs : Selector) (i : Nat) : Candidate :=
  cs.candidates.getD i ⟨0, 0, 0, false⟩

/-- Precondition of `CoinSelector::select` (`assert!(index < self.candidates.len())`). -/
def Selector.selectPre (cs : Selector) (i : Nat) : Prop :=
  i < cs.candidates.length

/-- Mutation performed by `CoinSelector::select` (after its assert). -/
def Selector.select (cs : Selector) (i : Nat) : Selector :=
  { cs with selected := insert i cs.selected }

/-- Mutation performed by `CoinSelector::ban` (note: no bounds check in the
source). -/
def Selector.ban (cs : Selector) (i : Nat) : Selector :=
  { cs with banned := insert i cs.banned }

/-- Mutation performed by `CoinSelector::deselect`. -/
def Selector.deselect (cs : Selector) (i : Nat) : Selector :=
  { cs with selected := cs.selected.erase i }

/-- Unselected candidate indices in current order, from
`CoinSelector::unselected_indices`: filters the order permutation,
excluding selected and banned indices. -/
def Selector.unselected_indices (cs : Selector) : List Nat :=
  cs.candidate_order.filter fun i => !(decide (i ∈ cs.selected) || decide (i ∈ cs.banned))

/-- Unselected candidates with their index, from `CoinSelector::unselected`. -/
def Selector.unselected (cs : Selector) : List (Nat × Candidate) :=
  cs.unselected_indices.map fun i => (i, cs.candidateAt i)

/-- Sum of selected input counts, the `input_count` sum inside
`CoinSelector::input_weight`. -/
def Selector.inputCountTotal (cs : Selector) : Nat :=
  ∑ i ∈ cs.selected, (cs.candidateAt i).input_count

/-- Whether any selected candidate is segwit (`is_segwit_tx` inside
`CoinSelector::input_weight`). -/
def Selector.isSegwitTx (cs : Selector) : Bool :=
  decide (∃ i ∈ cs.selected, (cs.candidateAt i).is_segwit = true)

/-- Weight contribution of one selected candidate inside
`CoinSelector::input_weight`: its own weight, plus 1 wu when the
transaction is segwit but the candidate itself is not. -/
def adjustedWeight (segwit_tx : Bool) (c : Candidate) : Nat :=
  c.weight + (if segwit_tx && !c.is_segwit then 1 else 0)

/-- Input weight, from `CoinSelector::input_weight`: varint for the input
count, adjusted weights of the selected candidates, and the 2 wu witness
header when the transaction is segwit. -/
def Selector.input_weight (cs : Selector) : Nat :=
  varint_size cs.inputCountTotal * 4
    + (∑ i ∈ cs.selected, adjustedWeight cs.isSegwitTx (cs.candidateAt i))
    + (if cs.isSegwitTx then 2 else 0)

/-- Absolute value sum of selected inputs, from `CoinSelector::selected_value`. -/
def Selector.selected_value (cs : Selector) : Nat :=
  ∑ i ∈ cs.selected, (cs.candidateAt i).value

/-- Feerate in sats per weight unit, from `feerate.rs`; the `f32` payload is
modelled as an exact rational.  The constructors' invariant (value
non-negative) appears as a hypothesis where a theorem needs it. -/
structure FeeRate where
  spwu : Rat
  deriving DecidableEq, Repr

/-- Replacement constraint, from `target.rs` (`struct Replace`). -/
structure Replace where
  fee : Nat
  incremental_relay_feerate : FeeRate
  deriving DecidableEq, Repr

/-- Rounded-up fee for a weight at a rate: models the recurring Rust
expression `(weight as f32 * rate.spwu()).ceil() as u64` (the `as u64`
cast saturates negative values to zero, as `Int.toNat` does). -/
def ceilFee (w : Nat) (rate : FeeRate) : Nat :=
  (Int.ceil ((w : Rat) * rate.spwu)).toNat

/-- Minimum fee to do the replacement, from `Replace::min_fee_to_do_replacement`:
the replaced fee plus the rounded-up incremental-relay fee on the replacing
weight. -/
def Replace.min_fee_to_do_replacement (r : Replace) (replacing_tx_weight : Nat) : Nat :=
  r.fee + ceilFee replacing_tx_weight r.incremental_relay_feerate

/-- Fee constraints, from `target.rs` (`struct TargetFee`). -/
structure TargetFee where
  rate : FeeRate
  replace : Option Replace
  deriving DecidableEq, Repr

/-- Aggregate outputs being funded, from `target.rs` (`struct TargetOutputs`). -/
structure TargetOutputs where
  value_sum : Nat
  weight_sum : Nat
  n_outputs : Nat
  deriving DecidableEq, Repr

/-- Combined output weight with a drain, from
`TargetOutputs::output_weight_with_drain`: varint of the combined output
count plus the drain output weight plus the target weight sum. -/
def TargetOutputs.output_weight_with_drain (t : TargetOutputs) (dw_n_outputs dw_output_weight : Nat) : Nat :=
  varint_size (dw_n_outputs + t.n_outputs) * 4 + dw_output_weight + t.weight_sum

/-- Selection target, from `target.rs` (`struct Target`). -/
structure Target where
  fee : TargetFee
  outputs : TargetOutputs
  deriving DecidableEq, Repr

/-- Target value, from `Target::value`. -/
def Target.value (t : Target) : Nat := t.outputs.value_sum

/-- Drain weight description, from `drain.rs` (`struct DrainWeights`). -/
structure DrainWeights where
  output_weight : Nat
  spend_weight : Nat
  n_outputs : Nat
  deriving DecidableEq, Repr

/-- No-drain sentinel, from `DrainWeights::NONE`. -/
def DrainWeights.NONE : DrainWeights := ⟨0, 0, 0⟩

/-- A drain (change) output, from `drain.rs` (`struct Drain`). -/
structure Drain where
  weights : DrainWeights
  value : Nat
  deriving DecidableEq, Repr

/-- No-drain sentinel, from `Drain::NONE`. -/
def Drain.NONE : Drain := ⟨DrainWeights.NONE, 0⟩

/-- Change policy, from `drain.rs` (`struct ChangePolicy`). -/
structure ChangePolicy where
  min_value : Nat
  drain_weights : DrainWeights
  deriving DecidableEq, Repr

/-- Transaction weight implied by the selection, from `CoinSelector::weight`. -/
def Selector.weight (cs : Selector) (target_outputs : TargetOutputs) (drain_weight : DrainWeights) : Nat :=
  TX_FIXED_FIELD_WEIGHT + cs.input_weight
    + target_outputs.output_weight_with_drain drain_weight.n_outputs drain_weight.output_weight

/-- Fee implied by the target feerate, from
`CoinSelector::implied_fee_from_feerate`. -/
def Selector.implied_fee_from_feerate (cs : Selector) (target : Target) (drain_weights : DrainWeights) : Nat :=
  ceilFee (cs.weight target.outputs drain_weights) target.fee.rate

/-- Rate excess, from `CoinSelector::rate_excess` (signed). -/
def Selector.rate_excess (cs : Selector) (target : Target) (drain : Drain) : Int :=
  (cs.selected_value : Int) - target.value - drain.value
    - cs.implied_fee_from_feerate target drain.weights

/-- Replacement excess, from `CoinSelector::replacement_excess` (signed);
the needed replacement fee is zero when the target has no `replace`. -/
def Selector.replacement_excess (cs : Selector) (target : Target) (drain : Drain) : Int :=
  (cs.selected_value : Int) - target.value - drain.value
    - (match target.fee.replace with
       | some r => (r.min_fee_to_do_replacement (cs.weight target.outputs drain.weights) : Int)
       | none => 0)

/-- Excess, from `CoinSelector::excess`: the minimum of rate excess and
replacement excess. -/
def Selector.excess (cs : Selector) (target : Target) (drain : Drain) : Int :=
  min (cs.rate_excess target drain) (cs.replacement_excess target drain)

/-- Target check with a drain, from `CoinSelector::is_target_met_with_drain`. -/
def Selector.is_target_met_with_drain (cs : Selector) (target : Target) (drain : Drain) : Bool :=
  decide (0 ≤ cs.excess target drain)

/-- Target check, from `CoinSelector::is_target_met`. -/
def Selector.is_target_met (cs : Selector) (target : Target) : Bool :=
  cs.is_target_met_with_drain target Drain.NONE

/-- Drain value, from `CoinSelector::drain_value`: the excess computed with
the policy's drain weights and zero drain value, returned when strictly
above the policy's minimum. -/
def Selector.drain_value (cs : Selector) (target : Target) (change_policy : ChangePolicy) : Option Nat :=
  let e := cs.excess target ⟨change_policy.drain_weights, 0⟩
  if (change_policy.min_value : Int) < e then some e.toNat else none

/-- One step of `CoinSelector::select_next`: select the first unselected
unbanned candidate in current order, or report exhaustion. -/
def Selector.selectNext (cs : Selector) : Option Selector :=
  match cs.unselected_indices with
  | [] => none
  | n :: _ => some (cs.select n)

/-- Fuel-indexed body of the `CoinSelector::select_until` loop: check the
predicate, otherwise select the next candidate and repeat; the boolean
records `Some(())` versus `None`.  The fuel only bounds the recursion;
`Selector.select_until` supplies enough fuel that it is never exhausted
(`selectUntilGo_fuel_irrelevant`). -/
def selectUntilGo (pred : Selector → Bool) : Nat → Selector → Selector × Bool
  | 0, cs => (cs, false)
  | fuel + 1, cs =>
    if pred cs then (cs, true)
    else
      match cs.selectNext with
      | none => (cs, false)
      | some cs1 => selectUntilGo pred fuel cs1

/-- The `CoinSelector::select_until` loop. -/
def Selector.select_until (cs : Selector) (pred : Selector → Bool) : Selector × Bool :=
  selectUntilGo pred (cs.unselected_indices.length + 1) cs

/-- Fuel-indexed body of the `CoinSelector::select_all` loop. -/
def selectAllGo : Nat → Selector → Selector
  | 0, cs => cs
  | fuel + 1, cs =>
    match cs.selectNext with
    | none => cs
    | some cs1 => selectAllGo fuel cs1

/-- The `CoinSelector::select_all` loop: `select_next` until exhaustion. -/
def Selector.select_all (cs : Selector) : Selector :=
  selectAllGo (cs.unselected_indices.length + 1) cs

/-- Iterating `select_next` a fixed number of times (staying put once
exhausted); used to speak about "the k-th state of the selection chain". -/
def iterSelect : Nat → Selector → Selector
  | 0, cs => cs
  | k + 1, cs =>
    match cs.selectNext with
    | none => cs
    | some cs1 => iterSelect k cs1

/-- The `CoinSelector::select_until_target_met` wrapper: `select_until` the
target is met; on failure the error carries
`self.excess(target, Drain::NONE).unsigned_abs()` computed at the final
state.  `some missing` models `Err(InsufficientFunds { missing })`. -/
def Selector.select_until_target_met (cs : Selector) (target : Target) : Selector × Option Nat :=
  let r := cs.select_until fun c => c.is_target_met target
  if r.2 then (r.1, none)
  else (r.1, some (r.1.excess target Drain.NONE).natAbs)

/-- IEEE-754 classification of a 32-bit float, the only structure of an
`f32` value that `FeeRate::new_checked` inspects. -/
inductive FpClass where
  | nan
  | infinite
  | normal
  | subnormal
  | zero
  deriving DecidableEq, Repr

/-- An `f32` value abstracted to its classification and sign bit. -/
structure F32 where
  cls : FpClass
  sign_negative : Bool
  deriving DecidableEq, Repr

/-- Rust `f32::is_normal`: neither zero, infinite, subnormal nor NaN. -/
def F32.isNormal (v : F32) : Bool := decide (v.cls = FpClass.normal)

/-- Rust `f32::is_finite`: normal, subnormal or zero. -/
def F32.isFinite (v : F32) : Bool :=
  decide (v.cls = FpClass.normal ∨ v.cls = FpClass.subnormal ∨ v.cls = FpClass.zero)

/-- Rust `f32::is_sign_positive`: the sign bit is clear. -/
def F32.isSignPositive (v : F32) : Bool := !v.sign_negative

/-- Rust `value == 0.0`: true exactly for the two zeros. -/
def F32.eqZero (v : F32) : Bool := decide (v.cls = FpClass.zero)

/-- Numeric non-negativity of an `f32` value (`0.0 <= v`, which holds for
`-0.0` as well): used to state the spec's "non-negative". -/
def F32.isNonNegative (v : F32) : Bool :=
  v.eqZero || (!v.sign_negative && decide (v.cls ≠ FpClass.nan))

/-- Acceptance predicate of `FeeRate::new_checked`, from `feerate.rs`: the
conjunction of its two asserts, `value.is_normal() || value == 0.0` and
`value.is_sign_positive()`.  Every `FeeRate` constructor funnels its
resulting value through this check. -/
def newCheckedAccepts (v : F32) : Bool :=
  (v.isNormal || v.eqZero) && v.isSignPositive

/-- Value per weight unit, from `Candidate::value_pwu` (`f32` division
modelled as exact rational division; a zero-weight candidate, `+inf` in
`f32`, is outside the fidelity of the model and unused by the claims). -/
def Candidate.value_pwu (c : Candidate) : Rat :=
  (c.value : Rat) / (c.weight : Rat)

/-- Lexicographic order on the `(value_pwu, value)` sort key used by
`sort_candidates_by_descending_value_pwu`. -/
def keyLE (a b : Rat × Nat) : Prop :=
  a.1 < b.1 ∨ (a.1 = b.1 ∧ a.2 ≤ b.2)

instance : DecidableRel keyLE := fun a b => by
  unfold keyLE; infer_instance

/-- Comparison used by `CoinSelector::sort_candidates_by_descending_value_pwu`:
ascending in `Reverse((Ordf32(value_pwu), value))`, i.e. descending in the
`(value_pwu, value)` key.  `a` may come before `b` iff `key b ≤ key a`. -/
def descPwuBefore (cs : Selector) (a b : Nat) : Prop :=
  keyLE ((cs.candidateAt b).value_pwu, (cs.candidateAt b).value)
    ((cs.candidateAt a).value_pwu, (cs.candidateAt a).value)

instance (cs : Selector) : DecidableRel (descPwuBefore cs) := fun a b => by
  unfold descPwuBefore; infer_instance

/-- Reordering performed by
`CoinSelector::sort_candidates_by_descending_value_pwu`: a stable sort of
the order permutation (Rust's `sort_by` is stable; a stable insertion sort
produces the same list for the same total preorder). -/
def Selector.sort_candidates_by_descending_value_pwu (cs : Selector) : Selector :=
  { cs with candidate_order := List.insertionSort (descPwuBefore cs) cs.candidate_order }

/-- Pluggable scoring interface, from `bnb.rs` (`trait BnbMetric`), with
`Ordf32` modelled as `Rat`.  The three metric implementations in
`src/metrics` are pure, so pure functions are a faithful model of the
`&mut self` receivers. -/
structure Metric where
  score : Selector → Option Rat
  bound : Selector → Option Rat
  requires_ordering_by_descending_value_pwu : Bool

/-- Queue element, from `bnb.rs` (`struct Branch`). -/
structure Branch where
  lower_bound : Rat
  selector : Selector
  is_exclusion : Bool

/-- The heap priority from `impl Ord for Branch`: `a.popsBefore b` says `a`
is popped no later than `b`, i.e. `a`'s lower bound is smaller, or equal
with `a` an inclusion branch or `b` an exclusion branch. -/
def Branch.popsBefore (a b : Branch) : Bool :=
  decide (a.lower_bound < b.lower_bound)
    || (decide (a.lower_bound = b.lower_bound) && (!a.is_exclusion || b.is_exclusion))

/-- Ordered insertion modelling `BinaryHeap::push`: the queue is kept
sorted with the branch popped first at the head.  Branches comparing equal
are interchangeable for the popped `lower_bound`/`is_exclusion` data, which
is all the driver reads. -/
def pushBranch : List Branch → Branch → List Branch
  | [], b => [b]
  | h :: t, b => if b.popsBefore h then b :: h :: t else h :: pushBranch t b

/-- Driver state, from `bnb.rs` (`struct BnbIter`): the priority queue and
the best score so far (the metric is passed separately since it is pure). -/
structure BnbState where
  queue : List Branch
  best : Option Rat

/-- Queue admission, from `BnbIter::consider_adding_to_queue`: push a
branch only if the metric gives it a bound and that bound beats the
current best (`best > bound`). -/
def considerAdd (m : Metric) (s : BnbState) (cs : Selector) (is_exclusion : Bool) : BnbState :=
  match m.bound cs with
  | none => s
  | some bound =>
    let is_good_enough := match s.best with
      | some best => decide (bound < best)
      | none => true
    if is_good_enough then { s with queue := pushBranch s.queue ⟨bound, cs, is_exclusion⟩ }
    else s

/-- Child generation, from `BnbIter::insert_new_branches`: if any
unselected candidate remains, the first is the pivot; consider the
inclusion child (pivot selected) and then the exclusion child (every
leading unselected candidate sharing the pivot's `(value, weight)` pair
banned — the loop over `cs.unselected()` breaks at the first mismatch,
i.e. a `takeWhile`). -/
def insertNewBranches (m : Metric) (s : BnbState) (cs : Selector) : BnbState :=
  match cs.unselected with
  | [] => s
  | (next_index, next) :: _ =>
    let inclusion_cs := cs.select next_index
    let s1 := considerAdd m s inclusion_cs false
    let to_ban := (next.value, next.weight)
    let ban_list := cs.unselected.takeWhile fun p => decide ((p.2.value, p.2.weight) = to_ban)
    let exclusion_cs := ban_list.foldl (fun acc p => acc.ban p.1) cs
    considerAdd m s1 exclusion_cs true

/-- Early-termination test of `BnbIter::next`: with a best score recorded,
stop when the popped branch's lower bound is strictly worse
(`*best < branch.lower_bound` in the source). -/
def shouldTerminate (best : Option Rat) (lower_bound : Rat) : Bool :=
  match best with
  | some b => decide (b < lower_bound)
  | none => false

/-- Improvement test of `BnbIter::next`: on an inclusion branch with a
score, the score is adopted iff it strictly beats the current best (or no
best exists yet). -/
def stepScore (m : Metric) (best : Option Rat) (branch : Branch) : Option Rat :=
  if branch.is_exclusion then none
  else
    match m.score branch.selector with
    | none => none
    | some score =>
      match best with
      | none => some score
      | some b => if score < b then some score else none

/-- One round of the iterator, from `BnbIter::next`: pop the head branch
(`none` when the queue is drained), emit `none` when `shouldTerminate`,
otherwise adopt an improving score if any, extend the frontier with
`insertNewBranches`, and yield the round result. -/
def bnbStep (m : Metric) (s : BnbState) : Option (BnbState × Option (Selector × Rat)) :=
  match s.queue with
  | [] => none
  | branch :: rest =>
    if shouldTerminate s.best branch.lower_bound then none
    else
      let r := stepScore m s.best branch
      let new_best := match r with
        | some score => some score
        | none => s.best
      some (insertNewBranches m ⟨rest, new_best⟩ branch.selector,
            r.map fun score => (branch.selector, score))

/-- The stream of round results: run `bnbStep` up to `rounds` times,
stopping at the iterator's `None`.  Matches pulling at most `rounds` items
out of the Rust iterator. -/
def bnbTrace (m : Metric) : Nat → BnbState → List (Option (Selector × Rat))
  | 0, _ => []
  | rounds + 1, s =>
    match bnbStep m s with
    | none => []
    | some (s1, out) => out :: bnbTrace m rounds s1

/-- Driver construction, from `BnbIter::new`: sort the starting selector if
the metric asks for it, then consider it as the initial (inclusion-style)
branch. -/
def bnbNew (m : Metric) (cs : Selector) : BnbState :=
  let cs := if m.requires_ordering_by_descending_value_pwu
    then cs.sort_candidates_by_descending_value_pwu else cs
  considerAdd m ⟨[], none⟩ cs false

/-- The `NoBnbSolution` error payload, from `coin_selector.rs`. -/
structure NoBnbSolution where
  max_rounds : Nat
  rounds : Nat
  deriving DecidableEq, Repr

/-- The `CoinSelector::run_bnb` wrapper: pull at most `max_rounds` rounds,
keep the last improving solution (`flatten().last()`); on success replace
the selector (`*self = selector`), otherwise leave it as it was and report
`NoBnbSolution` with the number of rounds actually pulled. -/
def Selector.run_bnb (cs : Selector) (m : Metric) (max_rounds : Nat) :
    Selector × Except NoBnbSolution Rat :=
  let trace := bnbTrace m max_rounds (bnbNew m cs)
  match (trace.filterMap id).getLast? with
  | some (selector, score) => (selector, Except.ok score)
  | none => (cs, Except.error ⟨max_rounds, trace.length⟩)

/-- Trivial metric with no score and no bound: every branch is rejected.
Used to instantiate driver theorems on concrete states. -/
def mNone : Metric := ⟨fun _ => none, fun _ => none, false⟩

/-- Concrete selector: a zero-weight 100-sat candidate already selected and
an unselected zero-value candidate of weight 1000. -/
def csY : Selector := Selector.mk [⟨100, 0, 1, false⟩, ⟨0, 1000, 1, false⟩] {0} ∅ [0, 1]

/-- Concrete target: value 50, feerate 1 sat per weight unit, no replacement. -/
def tY : Target := Target.mk (TargetFee.mk (FeeRate.mk 1) none) (TargetOutputs.mk 50 0 0)

/-- Claim C7: for every `Replace` and weight `w`,
`min_fee_to_do_replacement w = fee + ceil(w * incremental_relay_feerate)`;
with `fee = 100000` and rate `0.25 spwu` it returns `100001` at `w = 4` and
`100002` at `w = 8`. -/
theorem C7_replacement_fee_rule :
    (Replace.min_fee_to_do_replacement ⟨100000, ⟨1/4⟩⟩ 4 = 100001
        ∧ Replace.min_fee_to_do_replacement ⟨100000, ⟨1/4⟩⟩ 8 = 100002)
      ∧ ∀ (r : Replace) (w : Nat), 0 ≤ r.incremental_relay_feerate.spwu →
        (r.min_fee_to_do_replacement w : Int)
          = (r.fee : Int) + Int.ceil ((w : Rat) * r.incremental_relay_feerate.spwu) := by
  refine ⟨⟨?_, ?_⟩, fun r w hw => ?_⟩
  · show 100000 + (Int.ceil ((4 : Rat) * (1/4))).toNat = 100001
    norm_num
  · show 100000 + (Int.ceil ((8 : Rat) * (1/4))).toNat = 100002
    norm_num
    decide
  have hc : (0 : Int) ≤ Int.ceil ((w : Rat) * r.incremental_relay_feerate.spwu) := by
    apply Int.ceil_nonneg
    exact mul_nonneg (by positivity) hw
  simp only [Replace.min_fee_to_do_replacement, ceilFee]
  push_cast [Int.toNat_of_nonneg hc]
  ring

/-- Witness for C7 at `Replace { fee := 7, rate := 1/3 }` and weight `5`. -/
theorem C7_witness :
    (0 : Rat) ≤ (FeeRate.mk (1/3)).spwu
      ∧ (Replace.min_fee_to_do_replacement ⟨7, ⟨1/3⟩⟩ 5 : Int)
          = (7 : Int) + Int.ceil ((5 : Rat) * (FeeRate.mk (1/3)).spwu) :=
  ⟨by norm_num, C7_replacement_fee_rule.2 ⟨7, ⟨1/3⟩⟩ 5 (by norm_num)⟩

/-- Counterexample to claim C9: a positive subnormal `f32` is finite and
non-negative, yet `FeeRate::new_checked` rejects it (`is_normal` excludes
subnormals and the value is not zero). -/
theorem C9_counterexample :
    (F32.isFinite ⟨FpClass.subnormal, false⟩ = true
        ∧ F32.isNonNegative ⟨FpClass.subnormal, false⟩ = true)
      ∧ newCheckedAccepts ⟨FpClass.subnormal, false⟩ = false := by
  decide

/-- Claim C9 as amended: the `FeeRate` constructors (all funnelled through
`new_checked`) accept a resulting value iff it is finite, non-negative,
not subnormal, and its sign bit is positive (so `-0.0` and positive
subnormals are rejected in addition to non-finite and negative values). -/
theorem C9_feerate_constructor_domain (v : F32) :
    newCheckedAccepts v = true
      ↔ (v.isFinite = true ∧ v.isNonNegative = true
          ∧ v.cls ≠ FpClass.subnormal ∧ v.sign_negative = false) := by
  obtain ⟨c, s⟩ := v
  cases c <;> cases s <;> decide

/-- Counterexample to claim C2: `ban` performs no bounds check, so banning
index `5` on a two-candidate selector records an out-of-range banned index. -/
theorem C2_counterexample :
    5 ∈ ((Selector.new [⟨1, 1, 1, false⟩, ⟨1, 1, 1, false⟩]).ban 5).banned
      ∧ ¬ 5 < (Selector.new [⟨1, 1, 1, false⟩, ⟨1, 1, 1, false⟩]).candidates.length := by
  constructor
  · simp [Selector.new, Selector.ban]
  · simp [Selector.new]

/-- Claim C2 as amended: the bound invariant on `selected` and `banned` is
preserved by `select` (whose assert makes out-of-range arguments panic
instead of inserting) and by `ban` for in-range arguments; `ban` itself has
no bounds check, so out-of-range arguments break the banned-set bound. -/
theorem C2_index_invariant (cs : Selector) (i : Nat)
    (hsel : ∀ j ∈ cs.selected, j < cs.candidates.length)
    (hban : ∀ j ∈ cs.banned, j < cs.candidates.length) :
    (cs.selectPre i →
        (∀ j ∈ (cs.select i).selected, j < (cs.select i).candidates.length)
          ∧ ∀ j ∈ (cs.select i).banned, j < (cs.select i).candidates.length)
      ∧ (i < cs.candidates.length →
        (∀ j ∈ (cs.ban i).selected, j < (cs.ban i).candidates.length)
          ∧ ∀ j ∈ (cs.ban i).banned, j < (cs.ban i).candidates.length) := by
  constructor
  · intro hi
    refine ⟨fun j hj => ?_, fun j hj => hban j hj⟩
    rcases Finset.mem_insert.mp hj with h | h
    · exact h ▸ hi
    · exact hsel j h
  · intro hi
    refine ⟨fun j hj => hsel j hj, fun j hj => ?_⟩
    rcases Finset.mem_insert.mp hj with h | h
    · exact h ▸ hi
    · exact hban j h

/-- Witness for the amended C2 on a fresh one-candidate selector at index 0. -/
theorem C2_index_invariant_witness :
    (∀ j ∈ (Selector.new [⟨1, 1, 1, false⟩]).selected,
        j < (Selector.new [⟨1, 1, 1, false⟩]).candidates.length)
      ∧ (∀ j ∈ (Selector.new [⟨1, 1, 1, false⟩]).banned,
        j < (Selector.new [⟨1, 1, 1, false⟩]).candidates.length)
      ∧ (((Selector.new [⟨1, 1, 1, false⟩]).selectPre 0 →
          (∀ j ∈ ((Selector.new [⟨1, 1, 1, false⟩]).select 0).selected,
              j < ((Selector.new [⟨1, 1, 1, false⟩]).select 0).candidates.length)
            ∧ ∀ j ∈ ((Selector.new [⟨1, 1, 1, false⟩]).select 0).banned,
              j < ((Selector.new [⟨1, 1, 1, false⟩]).select 0).candidates.length)
        ∧ (0 < (Selector.new [⟨1, 1, 1, false⟩]).candidates.length →
          (∀ j ∈ ((Selector.new [⟨1, 1, 1, false⟩]).ban 0).selected,
              j < ((Selector.new [⟨1, 1, 1, false⟩]).ban 0).candidates.length)
            ∧ ∀ j ∈ ((Selector.new [⟨1, 1, 1, false⟩]).ban 0).banned,
              j < ((Selector.new [⟨1, 1, 1, false⟩]).ban 0).candidates.length)) :=
  ⟨by simp [Selector.new], by simp [Selector.new],
    C2_index_invariant (Selector.new [⟨1, 1, 1, false⟩]) 0
      (by simp [Selector.new]) (by simp [Selector.new])⟩

/-- Claim C10: when `run_bnb` reports `NoBnbSolution`, the selector it was
called on is returned unchanged; it is replaced only on `Ok`. -/
theorem C10_run_bnb_error_preserves_selector (cs : Selector) (m : Metric)
    (max_rounds : Nat) (e : NoBnbSolution)
    (h : (cs.run_bnb m max_rounds).2 = Except.error e) :
    (cs.run_bnb m max_rounds).1 = cs := by
  unfold Selector.run_bnb at h ⊢
  rcases hl : ((bnbTrace m max_rounds (bnbNew m cs)).filterMap id).getLast? with _ | ⟨sel, sc⟩
  · simp [hl]
  · simp [hl] at h

/-- Witness for C10: the trivial metric admits no branch, so `run_bnb`
errors after zero rounds and hands back the untouched selector. -/
theorem C10_witness :
    ((Selector.new []).run_bnb mNone 1).2 = Except.error ⟨1, 0⟩
      ∧ ((Selector.new []).run_bnb mNone 1).1 = Selector.new [] :=
  ⟨rfl, C10_run_bnb_error_preserves_selector (Selector.new []) mNone 1 ⟨1, 0⟩ rfl⟩

/-- Counterexample to claim C1: with a recorded best score `1` and a popped
branch whose `lower_bound` equals `1`, the round does not emit `None`; the
source only terminates on `best < lower_bound`, so the branch is expanded. -/
theorem C1_counterexample :
    bnbStep mNone ⟨[⟨1, Selector.new [], false⟩], some 1⟩ = some (⟨[], some 1⟩, none) := by
  rfl

/-- Claim C1 as amended: with a best score recorded and a nonempty queue, a
round of the BnB iterator emits `None` and terminates exactly when the
popped branch's `lower_bound` is strictly greater than the best score;
equality does not terminate the search. -/
theorem C1_bnb_termination_test (m : Metric) (s : BnbState) (br : Branch)
    (rest : List Branch) (b : Rat) (hq : s.queue = br :: rest) (hb : s.best = some b) :
    bnbStep m s = none ↔ b < br.lower_bound := by
  unfold bnbStep
  rw [hq]
  by_cases h : b < br.lower_bound
  · simp [shouldTerminate, hb, h]
  · simp [shouldTerminate, hb, h]

/-- Witness for the amended C1 on a one-branch queue with best `1` and
popped lower bound `2`. -/
theorem C1_witness :
    (BnbState.mk [⟨2, Selector.new [], true⟩] (some 1)).queue = [⟨2, Selector.new [], true⟩]
      ∧ (BnbState.mk [⟨2, Selector.new [], true⟩] (some 1)).best = some 1
      ∧ (bnbStep mNone ⟨[⟨2, Selector.new [], true⟩], some 1⟩ = none ↔ (1 : Rat) < 2) :=
  ⟨rfl, rfl,
    C1_bnb_termination_test mNone ⟨[⟨2, Selector.new [], true⟩], some 1⟩
      ⟨2, Selector.new [], true⟩ [] 1 rfl rfl⟩

/-- Monotonicity of the varint size helper. -/
lemma varint_size_mono {a b : Nat} (h : a ≤ b) : varint_size a ≤ varint_size b := by
  unfold varint_size
  split_ifs <;> omega

/-- Selecting does not change the candidate slice, so lookups agree. -/
lemma candidateAt_select (cs : Selector) (i j : Nat) :
    (cs.select i).candidateAt j = cs.candidateAt j := rfl

/-- Selecting can only turn a non-segwit transaction segwit, never back. -/
lemma isSegwitTx_select_mono (cs : Selector) (i : Nat) (h : cs.isSegwitTx = true) :
    (cs.select i).isSegwitTx = true := by
  simp only [Selector.isSegwitTx, decide_eq_true_eq] at h ⊢
  obtain ⟨j, hj, hs⟩ := h
  exact ⟨j, Finset.mem_insert_of_mem hj, hs⟩

/-- The per-candidate adjusted weight grows with the segwit-tx flag. -/
lemma adjustedWeight_mono {b b' : Bool} (h : b = true → b' = true) (c : Candidate) :
    adjustedWeight b c ≤ adjustedWeight b' c := by
  by_cases hb : b = true
  · rw [hb, h hb]
  · have hb0 : b = false := by revert hb; cases b <;> simp
    rw [hb0]
    unfold adjustedWeight
    simp

/-- Claim C8: selecting an unselected in-range candidate never decreases
`input_weight`, across all segwit and non-segwit combinations (varint
growth, witness-header and per-non-segwit-input adjustments included). -/
theorem C8_input_weight_monotone (cs : Selector) (i : Nat)
    (h1 : i < cs.candidates.length) (h2 : i ∉ cs.selected) :
    cs.input_weight ≤ (cs.select i).input_weight := by
  have hsel : (cs.select i).selected = insert i cs.selected := rfl
  have hseg : cs.isSegwitTx = true → (cs.select i).isSegwitTx = true :=
    isSegwitTx_select_mono cs i
  unfold Selector.input_weight
  have hcount : cs.inputCountTotal ≤ (cs.select i).inputCountTotal := by
    unfold Selector.inputCountTotal
    rw [hsel, Finset.sum_insert h2]
    simp only [candidateAt_select]
    omega
  have hvarint : varint_size cs.inputCountTotal * 4
      ≤ varint_size (cs.select i).inputCountTotal * 4 :=
    Nat.mul_le_mul_right 4 (varint_size_mono hcount)
  have hsum : (∑ j ∈ cs.selected, adjustedWeight cs.isSegwitTx (cs.candidateAt j))
      ≤ ∑ j ∈ (cs.select i).selected, adjustedWeight (cs.select i).isSegwitTx ((cs.select i).candidateAt j) := by
    rw [hsel, Finset.sum_insert h2]
    simp only [candidateAt_select]
    calc (∑ j ∈ cs.selected, adjustedWeight cs.isSegwitTx (cs.candidateAt j))
        ≤ ∑ j ∈ cs.selected, adjustedWeight (cs.select i).isSegwitTx (cs.candidateAt j) :=
          Finset.sum_le_sum fun j _ => adjustedWeight_mono hseg (cs.candidateAt j)
      _ ≤ adjustedWeight (cs.select i).isSegwitTx (cs.candidateAt i)
            + ∑ j ∈ cs.selected, adjustedWeight (cs.select i).isSegwitTx (cs.candidateAt j) :=
          Nat.le_add_left _ _
  have hheader : (if cs.isSegwitTx then 2 else 0) ≤ (if (cs.select i).isSegwitTx then 2 else 0) := by
    by_cases hb : cs.isSegwitTx = true
    · rw [hb, hseg hb]
    · have hb0 : cs.isSegwitTx = false := by revert hb; cases cs.isSegwitTx <;> simp
      rw [hb0]
      simp
  exact Nat.add_le_add (Nat.add_le_add hvarint hsum) hheader

/-- Witness for C8: selecting index 0 of a fresh one-candidate selector. -/
theorem C8_witness :
    0 < (Selector.new [⟨1, 2, 1, true⟩]).candidates.length
      ∧ 0 ∉ (Selector.new [⟨1, 2, 1, true⟩]).selected
      ∧ (Selector.new [⟨1, 2, 1, true⟩]).input_weight
          ≤ ((Selector.new [⟨1, 2, 1, true⟩]).select 0).input_weight :=
  ⟨by decide, by decide,
    C8_input_weight_monotone (Selector.new [⟨1, 2, 1, true⟩]) 0 (by decide) (by decide)⟩

/-- Rounded-up fees are monotone in the weight (for a non-negative rate). -/
lemma ceilFee_mono (rate : FeeRate) (hr : 0 ≤ rate.spwu) {w1 w2 : Nat} (h : w1 ≤ w2) :
    ceilFee w1 rate ≤ ceilFee w2 rate := by
  unfold ceilFee
  apply Int.toNat_le_toNat
  exact Int.ceil_le_ceil (mul_le_mul_of_nonneg_right (by exact_mod_cast h) hr)

/-- A transaction with no drain weighs no more than one with any drain. -/
lemma weight_drain_none_le (cs : Selector) (out : TargetOutputs) (dw : DrainWeights) :
    cs.weight out DrainWeights.NONE ≤ cs.weight out dw := by
  unfold Selector.weight TargetOutputs.output_weight_with_drain
  have h0 : DrainWeights.NONE.n_outputs = 0 := rfl
  have h1 : DrainWeights.NONE.output_weight = 0 := rfl
  rw [h0, h1]
  have := varint_size_mono (Nat.add_le_add_right (Nat.zero_le dw.n_outputs) out.n_outputs)
  omega

/-- The excess is shifted down by exactly the drain value: all fee terms in
`excess` depend only on the drain's weights. -/
lemma excess_shift (cs : Selector) (t : Target) (w : DrainWeights) (v : Nat) :
    cs.excess t (Drain.mk w v) = cs.excess t (Drain.mk w 0) - v := by
  unfold Selector.excess Selector.rate_excess Selector.replacement_excess
  dsimp only
  cases hrep : t.fee.replace <;> simp only [hrep] <;> omega

/-- Dropping the drain weights can only increase the excess (NONE weighs
less, and both fee terms are monotone in the weight). -/
lemma excess_drain_none_ge (cs : Selector) (t : Target) (w : DrainWeights)
    (hrate : 0 ≤ t.fee.rate.spwu)
    (hrepl : ∀ r ∈ t.fee.replace, 0 ≤ r.incremental_relay_feerate.spwu) :
    cs.excess t (Drain.mk w 0) ≤ cs.excess t Drain.NONE := by
  have hw : cs.weight t.outputs DrainWeights.NONE ≤ cs.weight t.outputs w :=
    weight_drain_none_le cs t.outputs w
  unfold Selector.excess
  apply min_le_min
  · unfold Selector.rate_excess Selector.implied_fee_from_feerate
    dsimp only [Drain.NONE]
    have := ceilFee_mono t.fee.rate hrate hw
    omega
  · unfold Selector.replacement_excess
    dsimp only [Drain.NONE]
    cases hrep : t.fee.replace with
    | none => simp only; exact le_refl _
    | some r =>
      simp only
      have hincr := hrepl r (by rw [hrep]; rfl)
      unfold Replace.min_fee_to_do_replacement
      have := ceilFee_mono r.incremental_relay_feerate hincr hw
      omega

/-- Claim C5: drain conservation.  If `drain_value` returns `Some v` then
checking the target with the drain `{policy.drain_weights, v}` gives the
same verdict as checking it with no drain: the drain absorbs exactly the
excess, making the with-drain excess zero, while `Some v` forces the
no-drain excess to be positive as well. -/
theorem C5_drain_conservation (cs : Selector) (t : Target) (p : ChangePolicy) (v : Nat)
    (hrate : 0 ≤ t.fee.rate.spwu)
    (hrepl : ∀ r ∈ t.fee.replace, 0 ≤ r.incremental_relay_feerate.spwu)
    (h : cs.drain_value t p = some v) :
    cs.is_target_met_with_drain t (Drain.mk p.drain_weights v) = cs.is_target_met t := by
  unfold Selector.drain_value at h
  by_cases hc : (p.min_value : Int) < cs.excess t (Drain.mk p.drain_weights 0)
  case neg => rw [if_neg hc] at h; exact absurd h (by simp)
  rw [if_pos hc] at h
  injection h with hv
  have hepos : 0 < cs.excess t (Drain.mk p.drain_weights 0) :=
    lt_of_le_of_lt (Int.ofNat_nonneg _) hc
  have hvz : (v : Int) = cs.excess t (Drain.mk p.drain_weights 0) := by
    rw [← hv]
    exact Int.toNat_of_nonneg hepos.le
  have hL : cs.excess t (Drain.mk p.drain_weights v) = 0 := by
    rw [excess_shift, hvz]
    ring
  have hmin : cs.excess t (Drain.mk p.drain_weights 0) ≤ cs.excess t Drain.NONE :=
    excess_drain_none_ge cs t p.drain_weights hrate hrepl
  have hR : (0 : Int) ≤ cs.excess t Drain.NONE := le_trans hepos.le hmin
  unfold Selector.is_target_met Selector.is_target_met_with_drain
  rw [hL]
  simp [hR]

/-- Evaluation of `ceilFee` at rate zero. -/
lemma ceilFee_zero (w : Nat) : ceilFee w (FeeRate.mk 0) = 0 := by
  simp [ceilFee]

/-- Evaluation of `ceilFee` at rate one (one sat per weight unit). -/
lemma ceilFee_one (w : Nat) : ceilFee w (FeeRate.mk 1) = w := by
  simp [ceilFee]

/-- Closed form of `excess` for a zero feerate and no replacement. -/
lemma excess_eval_zero (cs : Selector) (t : Target) (d : Drain)
    (h1 : t.fee.rate = FeeRate.mk 0) (h2 : t.fee.replace = none) :
    cs.excess t d = (cs.selected_value : Int) - t.value - d.value := by
  unfold Selector.excess Selector.rate_excess Selector.replacement_excess
    Selector.implied_fee_from_feerate
  rw [h1, h2]
  simp [ceilFee_zero]

/-- Witness for C5 on a single selected 1000-sat candidate, target value
100, zero feerate, and a change policy with minimum value 10. -/
theorem C5_witness :
    (0 : Rat) ≤ (Target.mk (TargetFee.mk (FeeRate.mk 0) none) (TargetOutputs.mk 100 0 0)).fee.rate.spwu
      ∧ (∀ r ∈ (Target.mk (TargetFee.mk (FeeRate.mk 0) none) (TargetOutputs.mk 100 0 0)).fee.replace,
          (0 : Rat) ≤ r.incremental_relay_feerate.spwu)
      ∧ (Selector.mk [⟨1000, 0, 1, false⟩] {0} ∅ [0]).drain_value
          (Target.mk (TargetFee.mk (FeeRate.mk 0) none) (TargetOutputs.mk 100 0 0))
          (ChangePolicy.mk 10 (DrainWeights.mk 0 0 0)) = some 900
      ∧ (Selector.mk [⟨1000, 0, 1, false⟩] {0} ∅ [0]).is_target_met_with_drain
          (Target.mk (TargetFee.mk (FeeRate.mk 0) none) (TargetOutputs.mk 100 0 0))
          (Drain.mk (ChangePolicy.mk 10 (DrainWeights.mk 0 0 0)).drain_weights 900)
        = (Selector.mk [⟨1000, 0, 1, false⟩] {0} ∅ [0]).is_target_met
          (Target.mk (TargetFee.mk (FeeRate.mk 0) none) (TargetOutputs.mk 100 0 0)) := by
  have hdv : (Selector.mk [⟨1000, 0, 1, false⟩] {0} ∅ [0]).drain_value
      (Target.mk (TargetFee.mk (FeeRate.mk 0) none) (TargetOutputs.mk 100 0 0))
      (ChangePolicy.mk 10 (DrainWeights.mk 0 0 0)) = some 900 := by
    simp only [Selector.drain_value]
    rw [excess_eval_zero _ _ _ rfl rfl]
    decide
  exact ⟨le_refl 0, by simp, hdv,
    C5_drain_conservation _ _ _ 900 (le_refl 0) (by simp) hdv⟩

/-- Filtering with a stronger predicate keeps no more elements. -/
lemma length_filter_le_of_imp {α : Type} (p q : α → Bool) (l : List α)
    (h : ∀ x, q x = true → p x = true) :
    (l.filter q).length ≤ (l.filter p).length := by
  induction l with
  | nil => simp
  | cons a t ih =>
    by_cases hp : p a = true
    · by_cases hq : q a = true
      · simp [List.filter_cons, hp, hq, ih]
      · simp only [List.filter_cons, hp, if_pos, hq]
        simp only [Bool.not_eq_true] at hq
        simp [hq]
        omega
    · have hq : q a = false := by
        revert hp
        cases hqa : q a
        · simp
        · intro hp; exact absurd (h a hqa) hp
      simp only [Bool.not_eq_true] at hp
      simp [List.filter_cons, hp, hq, ih]

/-- Filtering with a strictly stronger predicate that kills a kept element
strictly shrinks the filtered list. -/
lemma length_filter_lt {α : Type} (p q : α → Bool) (l : List α)
    (h : ∀ x, q x = true → p x = true) (n : α)
    (hn : n ∈ l.filter p) (hq : q n = false) :
    (l.filter q).length < (l.filter p).length := by
  induction l with
  | nil => simp at hn
  | cons a t ih =>
    by_cases hpa : p a = true
    · by_cases hqa : q a = true
      · have hna : n ≠ a := by
          intro he
          rw [he, hqa] at hq
          exact absurd hq (by simp)
        have hnt : n ∈ t.filter p := by
          rw [List.filter_cons, if_pos hpa] at hn
          rcases List.mem_cons.mp hn with h1 | h1
          · exact absurd h1 hna
          · exact h1
        simp [List.filter_cons, hpa, hqa]
        exact ih hnt
      · have hqa0 : q a = false := by revert hqa; cases q a <;> simp
        simp only [List.filter_cons, hpa, if_pos, hqa0]
        simp only [Bool.false_eq_true, if_neg, not_false_iff]
        have := length_filter_le_of_imp p q t h
        simp
        omega
    · have hqa : q a = false := by
        revert hpa
        cases hqa : q a
        · simp
        · intro hp; exact absurd (h a hqa) hp
      have hpa0 : p a = false := by revert hpa; cases p a <;> simp
      have hnt : n ∈ t.filter p := by
        rw [List.filter_cons, if_neg (by simp [hpa0])] at hn
        exact hn
      simp [List.filter_cons, hpa0, hqa]
      exact ih hnt

/-- Selecting the next candidate strictly shrinks the unselected list. -/
lemma selectNext_unselected_lt (cs cs1 : Selector) (h : cs.selectNext = some cs1) :
    cs1.unselected_indices.length < cs.unselected_indices.length := by
  unfold Selector.selectNext at h
  cases hu : cs.unselected_indices with
  | nil => rw [hu] at h; exact absurd h (by simp)
  | cons n tl =>
    rw [hu] at h
    injection h with h
    subst h
    have himp : ∀ x, (!(decide (x ∈ (cs.select n).selected) || decide (x ∈ (cs.select n).banned))) = true
        → (!(decide (x ∈ cs.selected) || decide (x ∈ cs.banned))) = true := by
      intro x hx
      simp only [Selector.select, Bool.not_eq_true', Bool.or_eq_false_iff, decide_eq_false_iff_not,
        Finset.mem_insert] at hx ⊢
      exact ⟨fun hm => hx.1 (Or.inr hm), hx.2⟩
    have hq : (!(decide (n ∈ (cs.select n).selected) || decide (n ∈ (cs.select n).banned))) = false := by
      simp [Selector.select]
    have hn : n ∈ cs.candidate_order.filter
        fun i => !(decide (i ∈ cs.selected) || decide (i ∈ cs.banned)) := by
      have : n ∈ cs.unselected_indices := by rw [hu]; exact List.mem_cons_self n tl
      exact this
    have := length_filter_lt _ _ cs.candidate_order himp n hn hq
    rw [← hu]
    exact this

/-- The fuel supplied to `selectUntilGo` does not matter once it exceeds
the number of unselected candidates. -/
lemma selectUntilGo_fuel_irrelevant (pred : Selector → Bool) :
    ∀ (f1 : Nat), ∀ (f2 : Nat) (cs : Selector), cs.unselected_indices.length < f1
      → cs.unselected_indices.length < f2
      → selectUntilGo pred f1 cs = selectUntilGo pred f2 cs := by
  intro f1
  induction f1 with
  | zero => intro f2 cs h1 _; exact absurd h1 (by omega)
  | succ f1 ih =>
    intro f2 cs h1 h2
    cases f2 with
    | zero => exact absurd h2 (by omega)
    | succ f2 =>
      simp only [selectUntilGo]
      by_cases hp : pred cs = true
      · simp [hp]
      · have hp0 : pred cs = false := by revert hp; cases pred cs <;> simp
        simp only [hp0, Bool.false_eq_true, if_neg, not_false_iff]
        cases hsn : cs.selectNext with
        | none => rfl
        | some cs1 =>
          have hlt := selectNext_unselected_lt cs cs1 hsn
          exact ih f2 cs1 (by omega) (by omega)

/-- Unfolding equation of the `select_until` loop at its canonical fuel. -/
lemma select_until_eq (pred : Selector → Bool) (cs : Selector) :
    cs.select_until pred
      = if pred cs then (cs, true)
        else match cs.selectNext with
          | none => (cs, false)
          | some cs1 => cs1.select_until pred := by
  unfold Selector.select_until
  conv_lhs => rw [selectUntilGo]
  by_cases hp : pred cs = true
  · simp [hp]
  · have hp0 : pred cs = false := by revert hp; cases pred cs <;> simp
    simp only [hp0, Bool.false_eq_true, if_neg, not_false_iff]
    cases hsn : cs.selectNext with
    | none => rfl
    | some cs1 =>
      have hlt := selectNext_unselected_lt cs cs1 hsn
      exact selectUntilGo_fuel_irrelevant pred _ _ cs1 (by omega) (by omega)

/-- The fuel supplied to `selectAllGo` does not matter once it exceeds the
number of unselected candidates. -/
lemma selectAllGo_fuel_irrelevant :
    ∀ (f1 : Nat), ∀ (f2 : Nat) (cs : Selector), cs.unselected_indices.length < f1
      → cs.unselected_indices.length < f2
      → selectAllGo f1 cs = selectAllGo f2 cs := by
  intro f1
  induction f1 with
  | zero => intro f2 cs h1 _; exact absurd h1 (by omega)
  | succ f1 ih =>
    intro f2 cs h1 h2
    cases f2 with
    | zero => exact absurd h2 (by omega)
    | succ f2 =>
      simp only [selectAllGo]
      cases hsn : cs.selectNext with
      | none => rfl
      | some cs1 =>
        have hlt := selectNext_unselected_lt cs cs1 hsn
        exact ih f2 cs1 (by omega) (by omega)

/-- Unfolding equation of the `select_all` loop at its canonical fuel. -/
lemma select_all_eq (cs : Selector) :
    cs.select_all
      = match cs.selectNext with
        | none => cs
        | some cs1 => cs1.select_all := by
  unfold Selector.select_all
  conv_lhs => rw [selectAllGo]
  cases hsn : cs.selectNext with
  | none => rfl
  | some cs1 =>
    have hlt := selectNext_unselected_lt cs cs1 hsn
    exact selectAllGo_fuel_irrelevant _ _ cs1 (by omega) (by omega)

/-- When no candidate can be selected the chain is stationary. -/
lemma iterSelect_exhausted (cs : Selector) (h : cs.selectNext = none) :
    ∀ k, iterSelect k cs = cs := by
  intro k
  cases k with
  | zero => rfl
  | succ k => simp [iterSelect, h]

/-- Stepping the chain through a successful `select_next`. -/
lemma iterSelect_succ_some (cs cs1 : Selector) (k : Nat) (h : cs.selectNext = some cs1) :
    iterSelect (k + 1) cs = iterSelect k cs1 := by
  simp [iterSelect, h]

/-- The `select_all` loop lands on some state of the `select_next` chain. -/
lemma select_all_mem_chain (cs : Selector) : ∃ k, cs.select_all = iterSelect k cs := by
  by_cases hbound : ∀ fuel cs0, cs0.unselected_indices.length < fuel → ∃ k, cs0.select_all = iterSelect k cs0
  · exact hbound (cs.unselected_indices.length + 1) cs (by omega)
  · exfalso
    apply hbound
    intro fuel
    induction fuel with
    | zero => intro cs0 h; exact absurd h (by omega)
    | succ fuel ih =>
      intro cs0 h
      rw [select_all_eq]
      cases hsn : cs0.selectNext with
      | none => exact ⟨0, rfl⟩
      | some cs1 =>
        have hlt := selectNext_unselected_lt cs0 cs1 hsn
        obtain ⟨k, hk⟩ := ih cs1 (by omega)
        exact ⟨k + 1, by rw [iterSelect_succ_some cs0 cs1 k hsn]; exact hk⟩

/-- Characterization of the `select_until` loop: on success it stops at the
first state of the `select_next` chain satisfying the predicate; on failure
it lands on the fully-selected state and the predicate fails at every state
of the chain. -/
lemma select_until_spec (pred : Selector → Bool) (cs : Selector) :
    ((cs.select_until pred).2 = true →
      ∃ k, (cs.select_until pred).1 = iterSelect k cs
        ∧ pred (cs.select_until pred).1 = true
        ∧ ∀ j < k, pred (iterSelect j cs) = false)
      ∧ ((cs.select_until pred).2 = false →
        (cs.select_until pred).1 = cs.select_all
          ∧ ∀ k, pred (iterSelect k cs) = false) := by
  by_cases hp : pred cs = true
  · rw [select_until_eq, if_pos hp]
    constructor
    · intro _
      exact ⟨0, rfl, hp, fun j hj => absurd hj (by omega)⟩
    · intro hfalse
      simp at hfalse
  · have hp0 : pred cs = false := by revert hp; cases pred cs <;> simp
    rw [select_until_eq]
    simp only [hp0, Bool.false_eq_true, if_false]
    cases hsn : cs.selectNext with
    | none =>
      constructor
      · intro h; simp at h
      · intro _
        refine ⟨?_, ?_⟩
        · rw [select_all_eq, hsn]
        · intro k
          rw [iterSelect_exhausted cs hsn k]
          exact hp0
    | some cs1 =>
      have hlt := selectNext_unselected_lt cs cs1 hsn
      have IH := select_until_spec pred cs1
      constructor
      · intro h2
        obtain ⟨k, hk1, hk2, hk3⟩ := IH.1 h2
        refine ⟨k + 1, ?_, hk2, ?_⟩
        · rw [iterSelect_succ_some cs cs1 k hsn]
          exact hk1
        · intro j hj
          cases j with
          | zero => exact hp0
          | succ j =>
            rw [iterSelect_succ_some cs cs1 j hsn]
            exact hk3 j (by omega)
      · intro h2
        obtain ⟨hf, hall⟩ := IH.2 h2
        refine ⟨?_, ?_⟩
        · rw [hf, select_all_eq cs, hsn]
        · intro k
          cases k with
          | zero => exact hp0
          | succ k =>
            rw [iterSelect_succ_some cs cs1 k hsn]
            exact hall k
termination_by cs.unselected_indices.length
decreasing_by exact hlt

/-- Closed form of `is_target_met` for feerate one and no replacement: all
fee terms become plain weights. -/
lemma is_target_met_eval_one (cs : Selector) (t : Target)
    (h1 : t.fee.rate = FeeRate.mk 1) (h2 : t.fee.replace = none) :
    cs.is_target_met t
      = decide (0 ≤ min
          ((cs.selected_value : Int) - t.value - (cs.weight t.outputs DrainWeights.NONE : Int))
          ((cs.selected_value : Int) - t.value)) := by
  unfold Selector.is_target_met Selector.is_target_met_with_drain Selector.excess
    Selector.rate_excess Selector.replacement_excess Selector.implied_fee_from_feerate
  rw [h1, h2]
  rw [decide_eq_decide]
  dsimp only [Drain.NONE]
  rw [ceilFee_one]
  omega

/-- Counterexample to claim C6: a selector whose target is met at the start
(yielding `Ok`) while the fully-selected state is unmet (a huge-weight,
zero-value candidate drives the excess negative), so `Err` does not occur
"exactly when the target is unmet after every selectable candidate has been
selected". -/
theorem C6_counterexample :
    (csY.select_until_target_met tY).2 = none
      ∧ (csY.select_all).is_target_met tY = false := by
  have hmet0 : csY.is_target_met tY = true := by
    rw [is_target_met_eval_one csY tY rfl rfl]
    decide
  have hsu : csY.select_until (fun c => c.is_target_met tY) = (csY, true) := by
    rw [select_until_eq]
    simp [hmet0]
  have h1 : (csY.select_until_target_met tY).2 = none := by
    unfold Selector.select_until_target_met
    rw [hsu]
    rfl
  have hsn1 : csY.selectNext = some (csY.select 1) := by decide
  have hsn2 : (csY.select 1).selectNext = none := by decide
  have hsa : csY.select_all = csY.select 1 := by
    rw [select_all_eq, hsn1]
    show (csY.select 1).select_all = csY.select 1
    rw [select_all_eq, hsn2]
  have hmet2 : (csY.select 1).is_target_met tY = false := by
    rw [is_target_met_eval_one _ tY rfl rfl]
    decide
  exact ⟨h1, by rw [hsa]; exact hmet2⟩

/-- Claim C6 as amended: `select_until_target_met` returns
`Err(InsufficientFunds{missing})` exactly when the target is unmet at every
state of the selection chain; in that case the final state is the
fully-selected one and `missing = |min(excess, 0)|` there, and otherwise it
returns `Ok`, stopping at the first state (in selection order) where the
target is met. -/
theorem C6_select_until_target_met (cs : Selector) (t : Target) :
    (∀ f missing, cs.select_until_target_met t = (f, some missing) →
        f = cs.select_all ∧ f.is_target_met t = false
          ∧ (missing : Int) = |min (f.excess t Drain.NONE) 0|
          ∧ ∀ k, (iterSelect k cs).is_target_met t = false)
      ∧ (∀ f, cs.select_until_target_met t = (f, none) →
        ∃ k, f = iterSelect k cs ∧ f.is_target_met t = true
          ∧ ∀ j < k, (iterSelect j cs).is_target_met t = false) := by
  have H := select_until_spec (fun c => c.is_target_met t) cs
  rcases hsu : cs.select_until fun c => c.is_target_met t with ⟨f0, b⟩
  have hdef : cs.select_until_target_met t
      = if b then (f0, none) else (f0, some (f0.excess t Drain.NONE).natAbs) := by
    unfold Selector.select_until_target_met
    rw [hsu]
  rw [hsu] at H
  dsimp only at H
  cases b with
  | false =>
    rw [if_neg (by simp)] at hdef
    obtain ⟨hf, hall⟩ := H.2 rfl
    constructor
    · intro f missing h
      rw [hdef] at h
      injection h with h1 h2
      injection h2 with h2
      rw [← h1]
      obtain ⟨K, hK⟩ := select_all_mem_chain cs
      have hunmet : f0.is_target_met t = false := by
        rw [hf, hK]
        exact hall K
      have he : f0.excess t Drain.NONE < 0 := by
        have h3 := hunmet
        unfold Selector.is_target_met Selector.is_target_met_with_drain at h3
        have h4 := of_decide_eq_false h3
        omega
      refine ⟨hf, hunmet, ?_, hall⟩
      rw [← h2, min_eq_left he.le]
      exact Int.natCast_natAbs _
    · intro f h
      rw [hdef] at h
      injection h with h1 h2
      exact absurd h2 (by simp)
  | true =>
    rw [if_pos rfl] at hdef
    obtain ⟨k, hk1, hk2, hk3⟩ := H.1 rfl
    constructor
    · intro f missing h
      rw [hdef] at h
      injection h with h1 h2
      exact absurd h2 (by simp)
    · intro f h
      rw [hdef] at h
      injection h with h1 h2
      subst h1
      exact ⟨k, hk1, hk2, hk3⟩

/-- Witness for the amended C6: on `csY`/`tY` the target is met at the very
start, so the loop returns `Ok` at chain position zero. -/
theorem C6_witness :
    csY.select_until_target_met tY = (csY, none)
      ∧ ∃ k, csY = iterSelect k csY ∧ csY.is_target_met tY = true
          ∧ ∀ j < k, (iterSelect j csY).is_target_met tY = false := by
  have hmet0 : csY.is_target_met tY = true := by
    rw [is_target_met_eval_one csY tY rfl rfl]
    decide
  have hsu : csY.select_until (fun c => c.is_target_met tY) = (csY, true) := by
    rw [select_until_eq]
    simp [hmet0]
  have h1 : csY.select_until_target_met tY = (csY, none) := by
    unfold Selector.select_until_target_met
    rw [hsu]
    rfl
  exact ⟨h1, (C6_select_until_target_met csY tY).2 csY h1⟩

/-- Queue admission never changes the recorded best score. -/
lemma considerAdd_best (m : Metric) (s : BnbState) (cs : Selector) (e : Bool) :
    (considerAdd m s cs e).best = s.best := by
  unfold considerAdd
  cases hb : m.bound cs
  · rfl
  · dsimp only
    split <;> rfl

/-- Frontier extension never changes the recorded best score. -/
lemma insertNewBranches_best (m : Metric) (s : BnbState) (cs : Selector) :
    (insertNewBranches m s cs).best = s.best := by
  unfold insertNewBranches
  cases hu : cs.unselected
  · rfl
  · dsimp only
    rw [considerAdd_best, considerAdd_best]

/-- An adopted round score strictly beats any previously recorded best. -/
lemma stepScore_lt (m : Metric) (best : Option Rat) (branch : Branch) (sc : Rat)
    (h : stepScore m best branch = some sc) :
    ∀ b, best = some b → sc < b := by
  intro b hb
  subst hb
  cases hex : branch.is_exclusion
  · cases hsc : m.score branch.selector with
    | none => simp [stepScore, hex, hsc] at h
    | some score =>
      simp only [stepScore, hex, hsc, Bool.false_eq_true, if_false] at h
      by_cases hlt : score < b
      · rw [if_pos hlt] at h
        injection h with h
        rw [← h]
        exact hlt
      · rw [if_neg hlt] at h
        exact absurd h (by simp)
  · simp [stepScore, hex] at h

/-- A non-improving round leaves the best score unchanged. -/
lemma bnbStep_best_none (m : Metric) (s s1 : BnbState)
    (h : bnbStep m s = some (s1, none)) : s1.best = s.best := by
  unfold bnbStep at h
  cases hq : s.queue with
  | nil => rw [hq] at h; exact absurd h (by simp)
  | cons branch rest =>
    rw [hq] at h
    dsimp only at h
    by_cases ht : shouldTerminate s.best branch.lower_bound = true
    · rw [if_pos ht] at h; exact absurd h (by simp)
    · rw [if_neg ht] at h
      cases hr : stepScore m s.best branch with
      | none =>
        rw [hr] at h
        simp only [Option.map_none'] at h
        injection h with h
        injection h with h1 h2
        rw [← h1, insertNewBranches_best]
      | some sc =>
        rw [hr] at h
        simp only [Option.map_some'] at h
        injection h with h
        injection h with h1 h2
        exact absurd h2 (by simp)

/-- An improving round records the emitted score as the new best, and that
score strictly beats the previous best when one existed. -/
lemma bnbStep_best_some (m : Metric) (s s1 : BnbState) (sel : Selector) (sc : Rat)
    (h : bnbStep m s = some (s1, some (sel, sc))) :
    s1.best = some sc ∧ ∀ b, s.best = some b → sc < b := by
  unfold bnbStep at h
  cases hq : s.queue with
  | nil => rw [hq] at h; exact absurd h (by simp)
  | cons branch rest =>
    rw [hq] at h
    dsimp only at h
    by_cases ht : shouldTerminate s.best branch.lower_bound = true
    · rw [if_pos ht] at h; exact absurd h (by simp)
    · rw [if_neg ht] at h
      cases hr : stepScore m s.best branch with
      | none =>
        rw [hr] at h
        simp only [Option.map_none'] at h
        injection h with h
        injection h with h1 h2
        exact absurd h2 (by simp)
      | some sc0 =>
        rw [hr] at h
        simp only [Option.map_some'] at h
        injection h with h
        injection h with h1 h2
        injection h2 with h2
        injection h2 with h2a h2b
        constructor
        · rw [← h1, insertNewBranches_best, ← h2b]
        · intro b hb
          rw [← h2b]
          exact stepScore_lt m s.best branch sc0 hr b hb

/-- Every solution in the trace beats the starting best, and the solutions
are pairwise strictly decreasing. -/
lemma bnbTrace_lt (m : Metric) : ∀ (n : Nat) (s : BnbState),
    (∀ b, s.best = some b → ∀ x ∈ (bnbTrace m n s).filterMap id, x.2 < b)
      ∧ ((bnbTrace m n s).filterMap id).Pairwise (fun a c => c.2 < a.2) := by
  intro n
  induction n with
  | zero =>
    intro s
    constructor
    · intro b _ x hx
      simp [bnbTrace] at hx
    · simp [bnbTrace]
  | succ n ih =>
    intro s
    cases hs : bnbStep m s with
    | none =>
      constructor
      · intro b _ x hx
        simp [bnbTrace, hs] at hx
      · simp [bnbTrace, hs]
    | some p =>
      obtain ⟨s1, out⟩ := p
      have htr : bnbTrace m (n + 1) s = out :: bnbTrace m n s1 := by
        simp [bnbTrace, hs]
      rw [htr]
      cases hout : out with
      | none =>
        have hb1 : s1.best = s.best := bnbStep_best_none m s s1 (hout ▸ hs)
        simp only [List.filterMap_cons, id, Option.map_none']
        constructor
        · intro b hbb x hx
          exact (ih s1).1 b (by rw [hb1]; exact hbb) x hx
        · exact (ih s1).2
      | some x =>
        obtain ⟨sel, sc⟩ := x
        obtain ⟨hb1, hb2⟩ := bnbStep_best_some m s s1 sel sc (hout ▸ hs)
        simp only [List.filterMap_cons, id]
        constructor
        · intro b hbb x hx
          rcases List.mem_cons.mp hx with h1 | h1
          · rw [h1]
            exact hb2 b hbb
          · exact lt_trans ((ih s1).1 sc hb1 x h1) (hb2 b hbb)
        · refine List.Pairwise.cons ?_ (ih s1).2
          intro x hx
          exact (ih s1).1 sc hb1 x hx

/-- Claim C3: for every metric and starting selector, the improving
solutions yielded across the rounds of the BnB iterator have strictly
decreasing scores: any later solution scores strictly less than any earlier
one. -/
theorem C3_bnb_strictly_decreasing (m : Metric) (cs : Selector) (n : Nat) :
    ((bnbTrace m n (bnbNew m cs)).filterMap id).Pairwise (fun a c => c.2 < a.2) :=
  (bnbTrace_lt m n (bnbNew m cs)).2

/-- A `takeWhile` is the prefix of its own length. -/
lemma takeWhile_eq_take_length {α : Type} (p : α → Bool) (l : List α) :
    l.takeWhile p = l.take (l.takeWhile p).length := by
  induction l with
  | nil => rfl
  | cons a t ih =>
    by_cases hp : p a = true
    · simp only [List.takeWhile_cons, hp, if_true, List.length_cons, List.take_succ_cons]
      rw [← ih]
    · have hp0 : p a = false := by revert hp; cases p a <;> simp
      simp [List.takeWhile_cons, hp0]

/-- Elements of a `takeWhile` satisfy the predicate. -/
lemma mem_takeWhile_pred {α : Type} (p : α → Bool) (l : List α) :
    ∀ x ∈ l.takeWhile p, p x = true := by
  induction l with
  | nil => intro x hx; simp at hx
  | cons a t ih =>
    by_cases hp : p a = true
    · intro x hx
      simp only [List.takeWhile_cons, hp, if_true] at hx
      rcases List.mem_cons.mp hx with h1 | h1
      · rw [h1]; exact hp
      · exact ih x h1
    · have hp0 : p a = false := by revert hp; cases p a <;> simp
      intro x hx
      simp [List.takeWhile_cons, hp0] at hx

/-- The element right after a `takeWhile` prefix falsifies the predicate. -/
lemma head_drop_takeWhile {α : Type} (p : α → Bool) (l : List α) :
    ∀ x ∈ (l.drop (l.takeWhile p).length).head?, p x = false := by
  induction l with
  | nil => intro x hx; simp at hx
  | cons a t ih =>
    by_cases hp : p a = true
    · intro x hx
      simp only [List.takeWhile_cons, hp, if_true, List.length_cons, List.drop_succ_cons] at hx
      exact ih x hx
    · have hp0 : p a = false := by revert hp; cases p a <;> simp
      intro x hx
      simp only [List.takeWhile_cons, hp0, Bool.false_eq_true, if_false, List.length_nil,
        List.drop_zero, List.head?_cons, Option.mem_def, Option.some.injEq] at hx
      rw [← hx]
      exact hp0

/-- A `takeWhile` is never longer than the list. -/
lemma takeWhile_length_le {α : Type} (p : α → Bool) (l : List α) :
    (l.takeWhile p).length ≤ l.length := by
  induction l with
  | nil => simp
  | cons a t ih =>
    by_cases hp : p a = true
    · simp only [List.takeWhile_cons, hp, if_true, List.length_cons]
      omega
    · have hp0 : p a = false := by revert hp; cases p a <;> simp
      simp [List.takeWhile_cons, hp0]

/-- Claim C4: in a round expanding a node with a nonempty unselected list,
the pivot is the first unselected candidate and exactly two children are
considered: the inclusion child (pivot selected) and the exclusion child
(the maximal leading run of unselected candidates sharing the pivot's
`(value, weight)` banned, ending at the first differing candidate). -/
theorem C4_pivot_and_children (m : Metric) (s : BnbState) (cs : Selector)
    (i : Nat) (c : Candidate) (rest : List (Nat × Candidate))
    (h : cs.unselected = (i, c) :: rest) :
    ∃ k, 0 < k ∧ k ≤ cs.unselected.length
      ∧ insertNewBranches m s cs
          = considerAdd m (considerAdd m s (cs.select i) false)
              ((cs.unselected.take k).foldl (fun acc p => acc.ban p.1) cs) true
      ∧ (∀ p ∈ cs.unselected.take k, (p.2.value, p.2.weight) = (c.value, c.weight))
      ∧ ∀ p ∈ (cs.unselected.drop k).head?, (p.2.value, p.2.weight) ≠ (c.value, c.weight) := by
  refine ⟨(cs.unselected.takeWhile
    fun p => decide ((p.2.value, p.2.weight) = (c.value, c.weight))).length, ?_, ?_, ?_, ?_, ?_⟩
  · rw [h]
    simp [List.takeWhile_cons]
  · exact takeWhile_length_le _ _
  · have heq : insertNewBranches m s cs
        = considerAdd m (considerAdd m s (cs.select i) false)
            ((cs.unselected.takeWhile
              fun p => decide ((p.2.value, p.2.weight) = (c.value, c.weight))).foldl
                (fun acc p => acc.ban p.1) cs) true := by
      unfold insertNewBranches
      rw [h]
    rw [heq]
    conv_lhs => rw [takeWhile_eq_take_length]
  · intro p hp
    rw [← takeWhile_eq_take_length] at hp
    have := mem_takeWhile_pred _ _ p hp
    exact of_decide_eq_true this
  · intro p hp
    have := head_drop_takeWhile
      (fun p => decide ((p.2.value, p.2.weight) = (c.value, c.weight))) cs.unselected p hp
    exact of_decide_eq_false this

/-- Witness for C4 on three fresh candidates whose first two share the
`(value, weight)` pair `(5, 7)`. -/
theorem C4_witness :
    (Selector.new [⟨5, 7, 1, false⟩, ⟨5, 7, 1, false⟩, ⟨3, 2, 1, false⟩]).unselected
        = (0, (⟨5, 7, 1, false⟩ : Candidate)) :: [(1, ⟨5, 7, 1, false⟩), (2, ⟨3, 2, 1, false⟩)]
      ∧ ∃ k, 0 < k
        ∧ k ≤ (Selector.new [⟨5, 7, 1, false⟩, ⟨5, 7, 1, false⟩, ⟨3, 2, 1, false⟩]).unselected.length
        ∧ insertNewBranches mNone (BnbState.mk [] none)
            (Selector.new [⟨5, 7, 1, false⟩, ⟨5, 7, 1, false⟩, ⟨3, 2, 1, false⟩])
          = considerAdd mNone
              (considerAdd mNone (BnbState.mk [] none)
                ((Selector.new [⟨5, 7, 1, false⟩, ⟨5, 7, 1, false⟩, ⟨3, 2, 1, false⟩]).select 0) false)
              (((Selector.new [⟨5, 7, 1, false⟩, ⟨5, 7, 1, false⟩, ⟨3, 2, 1, false⟩]).unselected.take k).foldl
                (fun acc p => acc.ban p.1)
                (Selector.new [⟨5, 7, 1, false⟩, ⟨5, 7, 1, false⟩, ⟨3, 2, 1, false⟩])) true
        ∧ (∀ p ∈ (Selector.new [⟨5, 7, 1, false⟩, ⟨5, 7, 1, false⟩, ⟨3, 2, 1, false⟩]).unselected.take k,
            (p.2.value, p.2.weight) = ((5 : Nat), (7 : Nat)))
        ∧ ∀ p ∈ ((Selector.new [⟨5, 7, 1, false⟩, ⟨5, 7, 1, false⟩, ⟨3, 2, 1, false⟩]).unselected.drop k).head?,
            (p.2.value, p.2.weight) ≠ ((5 : Nat), (7 : Nat)) :=
  ⟨by decide,
    C4_pivot_and_children mNone (BnbState.mk [] none)
      (Selector.new [⟨5, 7, 1, false⟩, ⟨5, 7, 1, false⟩, ⟨3, 2, 1, false⟩])
      0 ⟨5, 7, 1, false⟩ [(1, ⟨5, 7, 1, false⟩), (2, ⟨3, 2, 1, false⟩)] (by decide)⟩

end CoinSelect
